import Mathlib

/-!
Verification of ravgtime (src/src/main.rs).

Shallow embedding of the statistics / percentile / histogram pipeline of
`main` (lines 51-131) and of `run_command` (lines 133-149), with
theorems settling the frozen claims.

Latency samples (Rust `u128` milliseconds) are modelled as `ℕ`.  The
`f32` arithmetic used for the percentile index (lines 65-81) is modelled
exactly: an `f32` value is represented by the rational number it
denotes, and every operation is exact rational arithmetic followed by
IEEE-754 binary32 rounding (round to nearest, ties to even).  For the
magnitudes arising here there are no subnormals, overflows or NaNs, so
this is bit-exact.  Rationals are represented by the unnormalised
fraction type `Fr` below so that everything reduces in the kernel.
-/

namespace Ravgtime

/-- An exact (unnormalised) fraction `num / den`.  Every constructor
call in this development keeps `den > 0`; no gcd normalisation is done,
so all operations are plain integer arithmetic. -/
structure Fr where
  num : ℤ
  den : ℕ

/-- Embed a natural number. -/
def Fr.ofNat (n : ℕ) : Fr := ⟨n, 1⟩

/-- Exact product. -/
def Fr.mul (a b : Fr) : Fr := ⟨a.num * b.num, a.den * b.den⟩

/-- Exact difference. -/
def Fr.sub (a b : Fr) : Fr := ⟨a.num * b.den - b.num * a.den, a.den * b.den⟩

/-- Absolute value. -/
def Fr.abs (a : Fr) : Fr := ⟨|a.num|, a.den⟩

/-- Exact multiplication by `2^k` for an integer `k`. -/
def Fr.scale2 (a : Fr) (k : ℤ) : Fr :=
  if 0 ≤ k then ⟨a.num * 2 ^ k.toNat, a.den⟩ else ⟨a.num, a.den * 2 ^ (-k).toNat⟩

/-- Floor as an integer (`den > 0` assumed). -/
def Fr.floor (a : Fr) : ℤ :=
  if 0 ≤ a.num then ((a.num.toNat / a.den : ℕ) : ℤ)
  else -(((a.num.natAbs + a.den - 1) / a.den : ℕ) : ℤ)

/-- Ceiling as an integer (`den > 0` assumed). -/
def Fr.ceil (a : Fr) : ℤ :=
  if 0 ≤ a.num then (((a.num.toNat + a.den - 1) / a.den : ℕ) : ℤ)
  else -((a.num.natAbs / a.den : ℕ) : ℤ)

/-- Value equality of two fractions (cross multiplication; `den > 0`).
IEEE `f32` equality on the (finite, exact) values modelled here is
exactly value equality. -/
def Fr.beq (a b : Fr) : Bool := a.num * (b.den : ℤ) == b.num * (a.den : ℤ)

/-- Whether the fraction is an exact integer (`den > 0` assumed). -/
def Fr.isInt (a : Fr) : Bool := a.num % (a.den : ℤ) == 0

/-- Fuel-based binary logarithm: `log2f fuel n` is `⌊log₂ n⌋` for
`1 ≤ n < 2^fuel` (structural recursion so the kernel can reduce it). -/
def log2f : ℕ → ℕ → ℕ
  | 0, _ => 0
  | fuel + 1, n => if n ≤ 1 then 0 else log2f fuel (n / 2) + 1

/-- Binary exponent of a positive fraction `a` (the `e` with
`2^e ≤ a < 2^(e+1)`), valid for `2⁻⁴⁰ ≤ a < 2^88`, which covers every
value arising in the percentile-index computation. -/
def expOf (a : Fr) : ℤ := (log2f 128 (a.scale2 40).floor.toNat : ℤ) - 40

/-- Round a fraction to an integer, half to even (the IEEE default tie
rule), used for the binary32 significand. -/
def rndHalfEven (x : Fr) : ℤ :=
  let f := x.floor
  if 2 * (x.num - f * x.den) = (x.den : ℤ) then (if 2 ∣ f then f else f + 1)
  else Fr.floor ⟨2 * x.num + x.den, 2 * x.den⟩

/-- Round an exact fraction to the nearest IEEE-754 binary32 value
(round to nearest, ties to even; no subnormal/overflow handling, which
is sound for the magnitudes occurring in this program). -/
def roundF32 (q : Fr) : Fr :=
  if q.num = 0 then ⟨0, 1⟩
  else
    let a := q.abs
    let e := expOf a
    let m := rndHalfEven (a.scale2 (23 - e))
    Fr.scale2 ⟨if q.num < 0 then -m else m, 1⟩ (e - 23)

/-- IEEE binary32 multiplication: exact product, then one rounding. -/
def f32mul (a b : Fr) : Fr := roundF32 (a.mul b)

/-- IEEE binary32 subtraction: exact difference, then one rounding. -/
def f32sub (a b : Fr) : Fr := roundF32 (a.sub b)

/-- Rust `n as f32` for `n : u32`. -/
def f32ofNat (n : ℕ) : Fr := roundF32 (Fr.ofNat n)

/-- The `f32` literal `0.95` of main.rs line 65. -/
def lit95 : Fr := roundF32 ⟨95, 100⟩

/-- The `f32` literal `0.99` of main.rs line 66. -/
def lit99 : Fr := roundF32 ⟨99, 100⟩

/-- Rust `f32::round`: nearest integer, half away from zero. -/
def f32rnd (x : Fr) : Fr :=
  let r := Fr.floor ⟨2 * |x.num| + (x.den : ℤ), 2 * x.den⟩
  roundF32 ⟨if x.num < 0 then -r else r, 1⟩

/-- Rust `f32::ceil`. -/
def f32ceil (x : Fr) : Fr := roundF32 ⟨x.ceil, 1⟩

/-- Rust `as usize` on an `f32`: saturating conversion toward zero;
negative values clamp to `0` (the values here stay far below
`usize::MAX`). -/
def f32toUsize (x : Fr) : ℕ := if x.num < 0 then 0 else x.floor.toNat

/-! ## Percentile computation (main.rs lines 65-81) -/

/-- The percentile index `lit * opt.repetitions as f32 - 1.0`
(main.rs lines 65-66), computed in `f32`. -/
def pctIndex (lit : Fr) (n : ℕ) : Fr := f32sub (f32mul lit (f32ofNat n)) (f32ofNat 1)

/-- Branch selection of the percentile computation (lines 68-81): which
branch the `if pXX_index == pXX_index.round()` test takes, and the
array index used (`pXX_index as usize`, resp. `pXX_index.ceil() as
usize`). -/
def pctSel (lit : Fr) (n : ℕ) : Bool × ℕ :=
  let i := pctIndex lit n
  if (Fr.beq i (f32rnd i)) = true then (true, f32toUsize i)
  else (false, f32toUsize (f32ceil i))

/-- The percentile value given a branch selection: the averaging branch
reads `ticks[idx]` and `ticks[idx + 1]` and takes `(i1 + i2) / 2`
(truncating `u128` division); the other branch reads `ticks[idx]`.
Out-of-range indexing (a Rust panic) is modelled as `none`. -/
def pctOfSel : Bool × ℕ → List ℕ → Option ℕ
  | (true, idx), ticks =>
    match ticks[idx]?, ticks[idx + 1]? with
    | some i1, some i2 => some ((i1 + i2) / 2)
    | _, _ => none
  | (false, idx), ticks => ticks[idx]?

/-- Model of `ticks.sort()` (main.rs line 51): the ascending stable sort of the
sample list (for `ℕ` values any ascending sort; insertion sort is used
as the executable model). -/
def sortTicks (t : List ℕ) : List ℕ := List.insertionSort (· ≤ ·) t

/-- The reported `p95` (lines 65, 68-74), as a function of the collected
sample list (`opt.repetitions = t.length` on every run that reaches the
report). -/
def p95 (t : List ℕ) : Option ℕ := pctOfSel (pctSel lit95 t.length) (sortTicks t)

/-- The reported `p99` (lines 66, 75-81). -/
def p99 (t : List ℕ) : Option ℕ := pctOfSel (pctSel lit99 t.length) (sortTicks t)

/-- Modelled from the spec (§4.3 percentile policy), for comparison with
the code's `f32` computation: the exact-arithmetic index
`p × n − 1` with `p = pn/pd`, its integrality test, and the selected
branch/array index. -/
def specSel (pn pd n : ℕ) : Bool × ℕ :=
  let i := Fr.sub (Fr.mul ⟨pn, pd⟩ (Fr.ofNat n)) (Fr.ofNat 1)
  if i.isInt = true then (true, i.floor.toNat) else (false, i.ceil.toNat)

/-- Modelled from the spec (§4.3): the percentile of the sorted sample
list under the exact-arithmetic policy. -/
def specPercentile (pn pd : ℕ) (t : List ℕ) : Option ℕ :=
  pctOfSel (specSel pn pd t.length) (sortTicks t)

/-! ## Statistics (main.rs lines 51-63) -/

/-- The accumulator `sum` (lines 53-58): sum of all samples, accumulated over the sorted
list exactly as the loop does. -/
def sumT (t : List ℕ) : ℕ := (sortTicks t).sum

/-- The accumulator `sum_square` (lines 54-58): sum of squares of all samples. -/
def sumSq (t : List ℕ) : ℕ := ((sortTicks t).map fun x => x * x).sum

/-- The reported `min` (line 59): first element of the sorted sample list. -/
def minT (t : List ℕ) : Option ℕ := (sortTicks t).head?

/-- The reported `max` (line 60): last element of the sorted sample list. -/
def maxT (t : List ℕ) : Option ℕ := (sortTicks t).getLast?

/-- The reported `avg = sum / opt.repetitions` (line 61): truncating integer
division; `opt.repetitions` equals the number of collected samples. -/
def avg (t : List ℕ) : ℕ := sumT t / t.length

/-! ## Histogram (main.rs lines 92-129) -/

/-- The `rounding_quotient` match on `*min.unwrap()` (lines 93-99). -/
def rounding_quotient (m : ℕ) : ℕ :=
  if m ≤ 1000 then 1
  else if m ≤ 10000 then 10
  else if m ≤ 100000 then 100
  else if m ≤ 1000000 then 1000
  else 10000

/-- The quotient used by the histogram of a run (minimum = head of the
sorted sample list; `getD 0` models the `unwrap` on a non-empty run). -/
def histQ (t : List ℕ) : ℕ := rounding_quotient ((minT t).getD 0)

/-- The bin key of every sample: `*tick / rounding_quotient`
(line 103), in sample order. -/
def keyList (t : List ℕ) : List ℕ := (sortTicks t).map fun x => x / histQ t

/-- The distinct bin keys, sorted ascending (lines 116-121): the key set
of the `frequencies` map, collected and sorted. -/
def histKeys (t : List ℕ) : List ℕ := List.insertionSort (· ≤ ·) (keyList t).dedup

/-- The tallied count of one bin key (lines 102-110): the number of
samples whose rounded time equals the key. -/
def binCount (t : List ℕ) (k : ℕ) : ℕ := (keyList t).count k

/-- The running maximum `max_freq` (lines 101-110): the largest bin count. -/
def maxFreq (t : List ℕ) : ℕ := ((histKeys t).map (binCount t)).foldr max 0

/-- The number of `#` characters of one bin's bar:
`count * 40 / max_freq` (line 127). -/
def barLen (t : List ℕ) (c : ℕ) : ℕ := c * 40 / maxFreq t

/-- The emitted histogram (lines 124-129): for every key in ascending
order, the displayed time `key * rounding_quotient`, the count, and the
bar length. -/
def histBins (t : List ℕ) : List (ℕ × ℕ × ℕ) :=
  (histKeys t).map fun k => (k * histQ t, binCount t k, barLen t (binCount t k))

/-! ## Command execution (main.rs lines 133-149) -/

/-- A sorted sample set of 2^24 samples: 15938355 samples of 10 ms
followed by 838861 samples of 20 ms (used to exhibit the divergence of
the `f32` index computation from the exact-arithmetic policy). -/
def bigSample : List ℕ := List.replicate 15938355 10 ++ List.replicate 838861 20

/-! ## Helper lemmas -/

/-- Every element of a sorted list is at least the head. -/
lemma sorted_lb {l : List ℕ} (hs : List.Sorted (· ≤ ·) l) {m : ℕ}
    (hm : l.head? = some m) : ∀ x ∈ l, m ≤ x := by
  cases l with
  | nil => simp at hm
  | cons a l =>
    obtain rfl : a = m := by simpa using hm
    intro x hx
    rcases List.mem_cons.1 hx with rfl | hx
    · exact le_refl _
    · exact (List.sorted_cons.1 hs).1 x hx

/-- Every element of a sorted list is at most the last element. -/
lemma sorted_ub {l : List ℕ} (hs : List.Sorted (· ≤ ·) l) {M : ℕ}
    (hM : l.getLast? = some M) : ∀ x ∈ l, x ≤ M := by
  obtain ⟨ys, rfl⟩ := List.getLast?_eq_some_iff.1 hM
  intro x hx
  rcases List.mem_append.1 hx with hx | hx
  · have h := (List.pairwise_append.1 hs).2.2
    exact h x hx M (List.mem_singleton.2 rfl)
  · simp only [List.mem_singleton] at hx
    exact hx ▸ le_refl _

/-- Summing the multiplicities of the distinct elements of a list gives
its length. -/
lemma sum_dedup_count (l : List ℕ) : (l.dedup.map fun k => l.count k).sum = l.length := by
  have h := Multiset.toFinset_sum_count_eq (l : Multiset ℕ)
  rw [Finset.sum] at h
  simpa [Multiset.toFinset] using h

/-- Arithmetic-geometric mean inequality for naturals. -/
lemma two_mul_le_nat (a b : ℕ) : 2 * a * b ≤ a * a + b * b := by
  zify
  nlinarith [sq_nonneg ((a : ℤ) - b)]

/-- Summed arithmetic-geometric mean inequality. -/
lemma two_mul_sum_le (a : ℕ) : ∀ l : List ℕ,
    2 * a * l.sum ≤ l.length * (a * a) + (l.map fun x => x * x).sum := by
  intro l
  induction l with
  | nil => simp
  | cons b l ih =>
    simp only [List.sum_cons, List.length_cons, List.map_cons]
    have := two_mul_le_nat a b
    nlinarith

/-- Cauchy-Schwarz for a list of naturals: the square of the sum is at
most the length times the sum of squares. -/
lemma sq_sum_le (l : List ℕ) :
    l.sum * l.sum ≤ l.length * (l.map fun x => x * x).sum := by
  induction l with
  | nil => simp
  | cons b l ih =>
    simp only [List.sum_cons, List.length_cons, List.map_cons]
    have h := two_mul_sum_le b l
    nlinarith

/-- The maximum computed by `foldr max 0` is attained on a non-empty
list. -/
lemma foldr_max_mem : ∀ l : List ℕ, l ≠ [] → l.foldr max 0 ∈ l := by
  intro l
  induction l with
  | nil => simp
  | cons a l ih =>
    intro _
    cases l with
    | nil => simp
    | cons b l' =>
      show max a ((b :: l').foldr max 0) ∈ a :: b :: l'
      rcases le_total ((b :: l').foldr max 0) a with h | h
      · rw [max_eq_left h]
        exact List.mem_cons_self _ _
      · rw [max_eq_right h]
        exact List.mem_cons_of_mem _ (ih (by simp))

/-- Every element of a list is at most its `foldr max 0`. -/
lemma le_foldr_max : ∀ (l : List ℕ), ∀ x ∈ l, x ≤ l.foldr max 0 := by
  intro l
  induction l with
  | nil => simp
  | cons a l ih =>
    intro x hx
    rcases List.mem_cons.1 hx with rfl | hx
    · exact le_max_left _ _
    · exact le_trans (ih x hx) (le_max_right _ _)

/-- Evaluation of the averaging branch of the percentile computation. -/
lemma pctOfSel_avg {idx : ℕ} {ticks : List ℕ} {a b : ℕ}
    (h1 : ticks[idx]? = some a) (h2 : ticks[idx + 1]? = some b) :
    pctOfSel (true, idx) ticks = some ((a + b) / 2) := by
  show (match ticks[idx]?, ticks[idx + 1]? with
    | some i1, some i2 => some ((i1 + i2) / 2)
    | _, _ => none) = some ((a + b) / 2)
  rw [h1, h2]

set_option maxRecDepth 40000 in
set_option maxHeartbeats 4000000 in
/-- For every sample count up to 300 the `f32` index computation of the
code selects the same branch and the same array index as the
exact-arithmetic policy of the spec, for both target fractions. -/
lemma pctSel_agree : ∀ n : ℕ, n < 301 →
    pctSel lit95 n = specSel 95 100 n ∧ pctSel lit99 n = specSel 99 100 n := by
  decide

/-! ## Claim theorems -/

/-- C1 (counterexample): the exact-arithmetic percentile policy of the
claim fails on the code.  For the sorted 2^24-element sample set
`bigSample`, the exact index `0.95 * 2^24 - 1 = 15938354.2` is not an
integer, so the claim requires `sorted[15938355] = 20`; but the `f32`
computation rounds `0.95 * 16777216.0` to exactly `15938355.0`, the
code takes the averaging branch and reports `(10 + 20) / 2 = 15`. -/
theorem percentile_f32_diverges :
    List.Sorted (· ≤ ·) bigSample ∧
    p95 bigSample = some 15 ∧
    specPercentile 95 100 bigSample = some 20 ∧
    p95 bigSample ≠ specPercentile 95 100 bigSample := by
  have hlen : bigSample.length = 16777216 := by
    unfold bigSample
    rw [List.length_append, List.length_replicate, List.length_replicate]
  have hsorted : List.Sorted (· ≤ ·) bigSample := by
    unfold bigSample
    rw [List.Sorted, List.pairwise_append]
    refine ⟨List.pairwise_replicate.2 (Or.inr le_rfl),
      List.pairwise_replicate.2 (Or.inr le_rfl), ?_⟩
    intro a ha b hb
    rw [List.eq_of_mem_replicate ha, List.eq_of_mem_replicate hb]
    omega
  have hsortEq : sortTicks bigSample = bigSample :=
    List.eq_of_perm_of_sorted (List.perm_insertionSort _ _)
      (List.sorted_insertionSort _ _) hsorted
  have hsel : pctSel lit95 16777216 = (true, 15938354) := by decide
  have hspecSel : specSel 95 100 16777216 = (false, 15938355) := by decide
  have hidx1 : bigSample[15938354]? = some 10 := by
    unfold bigSample
    rw [List.getElem?_append, List.length_replicate, if_pos (by omega),
      List.getElem?_replicate_of_lt (by omega)]
  have hidx2 : bigSample[15938355]? = some 20 := by
    unfold bigSample
    rw [List.getElem?_append, List.length_replicate, if_neg (by omega),
      show (15938355 - 15938355 : ℕ) = 0 from rfl,
      List.getElem?_replicate_of_lt (by omega)]
  have h95 : p95 bigSample = some 15 := by
    show pctOfSel (pctSel lit95 bigSample.length) (sortTicks bigSample) = some 15
    rw [hlen, hsel, hsortEq]
    exact pctOfSel_avg hidx1
      (by rw [show (15938354 + 1 : ℕ) = 15938355 from rfl]; exact hidx2)
  have hspec : specPercentile 95 100 bigSample = some 20 := by
    show pctOfSel (specSel 95 100 bigSample.length) (sortTicks bigSample) = some 20
    rw [hlen, hspecSel, hsortEq]
    exact hidx2
  refine ⟨hsorted, h95, hspec, ?_⟩
  rw [h95, hspec]
  simp

/-- C1 (amended): for every non-empty sample set of at most 300 samples,
the reported p95 and p99 follow the exact-arithmetic percentile policy
of the spec: with `index = p * n - 1`, if `index` is an exact integer
the percentile is `(sorted[index] + sorted[index + 1]) / 2`, otherwise
it is `sorted[ceil(index)]` (both sides as total functions returning
`none` on an out-of-range access, which does not occur here). -/
theorem percentile_policy_spec_bounded :
    ∀ t : List ℕ, t ≠ [] → t.length ≤ 300 →
      p95 t = specPercentile 95 100 t ∧ p99 t = specPercentile 99 100 t := by
  intro t _ hlen
  have h := pctSel_agree t.length (by omega)
  constructor
  · show pctOfSel (pctSel lit95 t.length) (sortTicks t) =
      pctOfSel (specSel 95 100 t.length) (sortTicks t)
    rw [h.1]
  · show pctOfSel (pctSel lit99 t.length) (sortTicks t) =
      pctOfSel (specSel 99 100 t.length) (sortTicks t)
    rw [h.2]

/-- Witness for C1 (amended) at the concrete sample set
`[10, 20, 30, 40, 50]`. -/
theorem percentile_policy_spec_bounded_witness :
    p95 [10, 20, 30, 40, 50] = specPercentile 95 100 [10, 20, 30, 40, 50] ∧
    p99 [10, 20, 30, 40, 50] = specPercentile 99 100 [10, 20, 30, 40, 50] :=
  percentile_policy_spec_bounded [10, 20, 30, 40, 50] (by decide) (by decide)

/-- C2: for samples `[10, 20, 30, 40, 50]` (n = 5) the reported p95 is
50, and for samples `[10, 20, 30, 40]` (n = 4) the reported p95 and p99
are both 40. -/
theorem percentile_concrete :
    p95 [10, 20, 30, 40, 50] = some 50 ∧
    p95 [10, 20, 30, 40] = some 40 ∧ p99 [10, 20, 30, 40] = some 40 := by
  decide

/-- C3: for every non-empty sample set the reported mean is the
truncating integer division of the sum by the count; in particular for
`[10, 21]` it is `31 / 2 = 15`, not 15.5. -/
theorem mean_truncating :
    (∀ t : List ℕ, t ≠ [] → avg t = t.sum / t.length) ∧ avg [10, 21] = 15 := by
  constructor
  · intro t _
    unfold avg sumT sortTicks
    rw [(List.perm_insertionSort _ t).sum_eq]
  · decide

/-- Witness for C3 at the concrete sample set `[10, 21]`. -/
theorem mean_truncating_witness :
    avg [10, 21] = [10, 21].sum / [10, 21].length :=
  mean_truncating.1 [10, 21] (by decide)

/-- C4: for every non-empty sample set, the sorted sample list is
non-decreasing and the reported statistics satisfy
`min ≤ mean ≤ max`. -/
theorem sorted_min_mean_max :
    ∀ t : List ℕ, t ≠ [] → List.Sorted (· ≤ ·) (sortTicks t) ∧
      ∀ m M, minT t = some m → maxT t = some M → m ≤ avg t ∧ avg t ≤ M := by
  intro t ht
  have hs : List.Sorted (· ≤ ·) (sortTicks t) := List.sorted_insertionSort _ t
  refine ⟨hs, ?_⟩
  intro m M hm hM
  have hlen : (sortTicks t).length = t.length := List.length_insertionSort _ t
  have hn : 0 < t.length := List.length_pos.2 ht
  have hlb := sorted_lb hs hm
  have hub := sorted_ub hs hM
  have hml : t.length * m ≤ sumT t := by
    have h := List.card_nsmul_le_sum (sortTicks t) m hlb
    simpa [sumT, hlen, smul_eq_mul] using h
  have hMu : sumT t ≤ t.length * M := by
    have h := List.sum_le_card_nsmul (sortTicks t) M hub
    simpa [sumT, hlen, smul_eq_mul] using h
  constructor
  · rw [avg, Nat.le_div_iff_mul_le hn, Nat.mul_comm]
    exact hml
  · calc sumT t / t.length ≤ t.length * M / t.length := Nat.div_le_div_right hMu
    _ = M := Nat.mul_div_cancel_left _ hn

/-- Witness for C4 at the concrete sample set `[10, 21]`. -/
theorem sorted_min_mean_max_witness :
    10 ≤ avg [10, 21] ∧ avg [10, 21] ≤ 21 :=
  (sorted_min_mean_max [10, 21] (by decide)).2 10 21 (by decide) (by decide)

/-- C5: for every non-empty sample set the histogram bin counts sum to
the number of samples. -/
theorem hist_counts_sum :
    ∀ t : List ℕ, t ≠ [] → ((histBins t).map fun b => b.2.1).sum = t.length := by
  intro t _
  unfold histBins
  rw [List.map_map]
  have h1 : ((histKeys t).map ((fun b => b.2.1) ∘ fun k =>
      (k * histQ t, binCount t k, barLen t (binCount t k)))).sum
      = ((histKeys t).map (binCount t)).sum := by rfl
  rw [h1]
  have h2 : List.Perm ((histKeys t).map (binCount t)) ((keyList t).dedup.map (binCount t)) :=
    List.Perm.map _ (List.perm_insertionSort _ _)
  rw [h2.sum_eq]
  unfold binCount
  rw [sum_dedup_count]
  unfold keyList
  rw [List.length_map]
  unfold sortTicks
  rw [List.length_insertionSort]

/-- Witness for C5 at the concrete sample set `[10, 21]`. -/
theorem hist_counts_sum_witness :
    ((histBins [10, 21]).map fun b => b.2.1).sum = [10, 21].length :=
  hist_counts_sum [10, 21] (by decide)

/-- C6: for every non-empty sample set the rounding quotient follows the
decade table on the minimum sample, every emitted bin is a pair of a
displayed time `key * quotient` and the tally of samples whose
`sample / quotient` equals the key, and the bins are emitted sorted
ascending by key. -/
theorem hist_structure :
    ∀ t : List ℕ, t ≠ [] →
      (((minT t).getD 0 ≤ 1000 → histQ t = 1) ∧
       (1000 < (minT t).getD 0 → (minT t).getD 0 ≤ 10000 → histQ t = 10) ∧
       (10000 < (minT t).getD 0 → (minT t).getD 0 ≤ 100000 → histQ t = 100) ∧
       (100000 < (minT t).getD 0 → (minT t).getD 0 ≤ 1000000 → histQ t = 1000) ∧
       (1000000 < (minT t).getD 0 → histQ t = 10000)) ∧
      (∀ b ∈ histBins t, ∃ k, b.1 = k * histQ t ∧
        b.2.1 = (t.map fun s => s / histQ t).count k) ∧
      List.Sorted (· ≤ ·) ((histBins t).map fun b => b.1) := by
  intro t _
  refine ⟨⟨fun h => ?_, fun h1 h2 => ?_, fun h1 h2 => ?_, fun h1 h2 => ?_, fun h1 => ?_⟩,
    ?_, ?_⟩
  · simp only [histQ, rounding_quotient]
    rw [if_pos h]
  · simp only [histQ, rounding_quotient]
    rw [if_neg (by omega), if_pos h2]
  · simp only [histQ, rounding_quotient]
    rw [if_neg (by omega), if_neg (by omega), if_pos h2]
  · simp only [histQ, rounding_quotient]
    rw [if_neg (by omega), if_neg (by omega), if_neg (by omega), if_pos h2]
  · simp only [histQ, rounding_quotient]
    rw [if_neg (by omega), if_neg (by omega), if_neg (by omega), if_neg (by omega)]
  · intro b hb
    unfold histBins at hb
    rcases List.mem_map.1 hb with ⟨k, _, rfl⟩
    refine ⟨k, rfl, ?_⟩
    show binCount t k = (t.map fun s => s / histQ t).count k
    unfold binCount keyList sortTicks
    exact List.Perm.count_eq (List.Perm.map _ (List.perm_insertionSort _ _)) k
  · unfold histBins
    rw [List.map_map]
    have h1 : ((fun b => b.1) ∘ fun k => (k * histQ t, binCount t k, barLen t (binCount t k)))
        = fun k => k * histQ t := rfl
    rw [h1]
    exact List.Pairwise.map _ (fun a b h => Nat.mul_le_mul_right _ h)
      (List.sorted_insertionSort _ _)

/-- Witness for C6 at the concrete sample set `[10, 21]`. -/
theorem hist_structure_witness :
    List.Sorted (· ≤ ·) ((histBins [10, 21]).map fun b => b.1) :=
  (hist_structure [10, 21] (by decide)).2.2

/-- C7 (counterexample): a present bin can render with a zero-width bar.
For 41 samples of 0 ms and one sample of 1001 ms the most populous bin
has count 41, so the bin at key 1001 with count 1 gets
`1 * 40 / 41 = 0` bar characters. -/
theorem hist_zero_bar_exists :
    histBins (List.replicate 41 0 ++ [1001]) = [(0, 41, 40), (1001, 1, 0)] ∧
    ¬ (∀ b ∈ histBins (List.replicate 41 0 ++ [1001]), 1 ≤ b.2.2) := by
  constructor
  · decide
  · intro h
    have := h (1001, 1, 0) (by decide)
    simp at this

/-- C7 (amended): every emitted bin has count at least 1 and bar length
`count * 40 / maxBinCount`; the most populous bin always renders at
width exactly 40; and whenever the most populous bin's count is at most
40, every present bin renders with width at least 1 (for larger maximum
counts a sparse bin can render at width 0, as the counterexample
shows). -/
theorem hist_bar_lengths :
    ∀ t : List ℕ, t ≠ [] →
      (∀ b ∈ histBins t, 1 ≤ b.2.1 ∧ b.2.2 = b.2.1 * 40 / maxFreq t) ∧
      (∃ b ∈ histBins t, b.2.1 = maxFreq t ∧ b.2.2 = 40) ∧
      (maxFreq t ≤ 40 → ∀ b ∈ histBins t, 1 ≤ b.2.2) := by
  intro t ht
  have h1 : keyList t ≠ [] := by
    unfold keyList
    simp only [ne_eq, List.map_eq_nil_iff]
    intro h
    apply ht
    have h2 : (sortTicks t).length = t.length := by
      unfold sortTicks
      exact List.length_insertionSort _ _
    rw [h, List.length_nil] at h2
    exact List.length_eq_zero.1 h2.symm
  obtain ⟨x, hx⟩ := List.exists_mem_of_ne_nil _ h1
  have hxk : x ∈ histKeys t := by
    unfold histKeys
    exact (List.mem_insertionSort _).2 (List.mem_dedup.2 hx)
  have hcnt : ∀ k ∈ histKeys t, 1 ≤ binCount t k := by
    intro k hk
    have hkm : k ∈ keyList t := List.mem_dedup.1 ((List.mem_insertionSort _).1 hk)
    exact List.count_pos_iff.2 hkm
  have hmax : ∀ k ∈ histKeys t, binCount t k ≤ maxFreq t := by
    intro k hk
    exact le_foldr_max _ _ (List.mem_map_of_mem _ hk)
  have hMpos : 0 < maxFreq t := lt_of_lt_of_le (hcnt x hxk) (hmax x hxk)
  refine ⟨?_, ?_, ?_⟩
  · intro b hb
    rcases List.mem_map.1 hb with ⟨k, hk, rfl⟩
    exact ⟨hcnt k hk, rfl⟩
  · have hne : (histKeys t).map (binCount t) ≠ [] := by
      simp only [ne_eq, List.map_eq_nil_iff]
      exact List.ne_nil_of_mem hxk
    have hmem : maxFreq t ∈ (histKeys t).map (binCount t) := foldr_max_mem _ hne
    rcases List.mem_map.1 hmem with ⟨k, hk, hkeq⟩
    refine ⟨(k * histQ t, binCount t k, barLen t (binCount t k)),
      List.mem_map_of_mem _ hk, hkeq, ?_⟩
    show barLen t (binCount t k) = 40
    unfold barLen
    rw [hkeq, Nat.mul_div_cancel_left 40 hMpos]
  · intro hM40 b hb
    rcases List.mem_map.1 hb with ⟨k, hk, rfl⟩
    show 1 ≤ barLen t (binCount t k)
    unfold barLen
    rw [Nat.le_div_iff_mul_le hMpos, one_mul]
    calc maxFreq t ≤ 40 := hM40
      _ = 1 * 40 := (one_mul _).symm
      _ ≤ binCount t k * 40 := Nat.mul_le_mul_right _ (hcnt k hk)

/-- Witness for C7 (amended) at the concrete sample set `[10, 21]`. -/
theorem hist_bar_lengths_witness :
    (∀ b ∈ histBins [10, 21], 1 ≤ b.2.1 ∧ b.2.2 = b.2.1 * 40 / maxFreq [10, 21]) ∧
    (∃ b ∈ histBins [10, 21], b.2.1 = maxFreq [10, 21] ∧ b.2.2 = 40) ∧
    (maxFreq [10, 21] ≤ 40 → ∀ b ∈ histBins [10, 21], 1 ≤ b.2.2) :=
  hist_bar_lengths [10, 21] (by decide)

/-- C8: with a single sample both percentile computations access only
index 0 of the sample array and never index past the end (the `f32`
index `0.95 - 1.0 = -0.05...` is not equal to its rounding `-0.0`, so
the non-averaging branch runs, and `ceil` then `as usize` yield 0). -/
theorem percentile_single :
    ∀ a : ℕ, p95 [a] = some a ∧ p99 [a] = some a := by
  intro a
  have h95 : pctSel lit95 1 = (false, 0) := by decide
  have h99 : pctSel lit99 1 = (false, 0) := by decide
  constructor
  · show pctOfSel (pctSel lit95 1) (sortTicks [a]) = some a
    rw [h95]
    rfl
  · show pctOfSel (pctSel lit99 1) (sortTicks [a]) = some a
    rw [h99]
    rfl

/-- C10: for every non-empty sample set,
`floor(sumSquares / n) ≥ floor(sum / n)²`, so the `u128` subtraction
`sum_square / repetitions - avg * avg` in the standard-deviation
computation (line 63) never underflows and the square root receives a
non-negative argument. -/
theorem variance_arg_nonneg :
    ∀ t : List ℕ, t ≠ [] → avg t * avg t ≤ sumSq t / t.length := by
  intro t ht
  have hn : 0 < t.length := List.length_pos.2 ht
  have hlen : (sortTicks t).length = t.length := List.length_insertionSort _ t
  rw [Nat.le_div_iff_mul_le hn]
  have h1 : avg t * t.length ≤ sumT t := by
    rw [avg]
    exact Nat.div_mul_le_self _ _
  have h2 : sumT t * sumT t ≤ t.length * sumSq t := by
    have := sq_sum_le (sortTicks t)
    simpa [sumT, sumSq, hlen] using this
  have h3 : (avg t * t.length) * (avg t * t.length) ≤ t.length * sumSq t :=
    le_trans (Nat.mul_le_mul h1 h1) h2
  have h4 : t.length * (avg t * avg t * t.length) ≤ t.length * sumSq t := by
    calc t.length * (avg t * avg t * t.length)
        = (avg t * t.length) * (avg t * t.length) := by ring
      _ ≤ t.length * sumSq t := h3
  exact Nat.le_of_mul_le_mul_left h4 hn

/-- Witness for C10 at the concrete sample set `[10, 21]`. -/
theorem variance_arg_nonneg_witness :
    avg [10, 21] * avg [10, 21] ≤ sumSq [10, 21] / [10, 21].length :=
  variance_arg_nonneg [10, 21] (by decide)

end Ravgtime
